/-
Verification of the hybrid search engine in
`backend/app/services/hybrid_search.py`.

The Python module is shallow-embedded below:
* floats are modelled as rationals (`ℚ`); every numeric literal of the
  source (`0.2`, `0.75`, …) is carried over as the exact rational;
* Python `dict`s (insertion ordered) are association lists with
  update-in-place / append-on-new-key semantics (`aSet`);
* `np.log` is a float transcendental, so `indexDocuments` takes the
  logarithm as an explicit function parameter `npLog`;
* `datetime.now()` / `datetime.fromisoformat` are modelled by an explicit
  environment `Env` carrying the current day number and a parser for
  timestamp strings (parser returning `none` models the `except` path);
* the semantic collaborator's answer (`vector_store.similarity_search`)
  is passed in as an `Except Unit (List Doc)`, `Except.error` modelling a
  raised exception;
* Python's stable `list.sort(key=…, reverse=True)` is `List.mergeSort`
  with the relation "left score is at least right score", which is the
  same stable descending sort.
-/
import Mathlib

namespace HybridSearch

/-- Value stored in a `relevance_factors` dict entry: the source stores
floats there, and the reranker additionally stores one nested dict (the
raw factor breakdown) under `"rerank_factors"`. -/
inductive FVal where
  | num (q : ℚ)
  | nested (m : List (String × ℚ))
deriving DecidableEq, Repr

/-- Python `d.get(key)` on an insertion-ordered dict. -/
def aGet {α : Type} (d : List (String × α)) (k : String) : Option α :=
  (d.find? (fun p => decide (p.1 = k))).map (fun p => p.2)

/-- Python `d.get(key, default)`. -/
def aGetD {α : Type} (d : List (String × α)) (k : String) (v : α) : α :=
  (aGet d k).getD v

/-- Python `key in d`. -/
def aMem {α : Type} (d : List (String × α)) (k : String) : Bool :=
  (aGet d k).isSome

/-- Python `d[key] = v`: replace in place when the key exists (keeping its
position, as a Python dict does), append otherwise. -/
def aSet {α : Type} (d : List (String × α)) (k : String) (v : α) :
    List (String × α) :=
  if aMem d k then d.map (fun p => if p.1 = k then (k, v) else p)
  else d ++ [(k, v)]

/-- Mutation of the value stored under a key (`d[key].field = …`);
a no-op when the key is absent. -/
def aModify {α : Type} (d : List (String × α)) (k : String) (f : α → α) :
    List (String × α) :=
  d.map (fun p => if p.1 = k then (p.1, f p.2) else p)

/-- The whitespace class of the source's `re.sub(r'[^a-z0-9\s]', ' ', …)`
and of `str.split()` (ASCII part). -/
def isPySpace (c : Char) : Bool :=
  c == ' ' || c == '\t' || c == '\n' || c == '\r' || c == '\x0b' || c == '\x0c'

/-- Characters the tokenizer keeps: `[a-z0-9]`. -/
def isKept (c : Char) : Bool :=
  ('a' ≤ c && c ≤ 'z') || ('0' ≤ c && c ≤ '9')

/-- One character of `re.sub(r'[^a-z0-9\s]', ' ', text)`. -/
def pyCleanChar (c : Char) : Char :=
  if isKept c || isPySpace c then c else ' '

/-- Python `str.split()`: split on runs of whitespace, no empty pieces.
The accumulator holds the current token reversed. -/
def splitTokensAux : List Char → List Char → List (List Char)
  | [], acc => if acc.isEmpty then [] else [acc.reverse]
  | c :: cs, acc =>
    if isPySpace c then
      if acc.isEmpty then splitTokensAux cs []
      else acc.reverse :: splitTokensAux cs []
    else splitTokensAux cs (c :: acc)

/-- Model of `BM25Scorer.tokenize`: lowercase, replace every character outside
`[a-z0-9\s]` by a space, split on whitespace, drop tokens of length ≤ 2. -/
def tokenize (text : String) : List String :=
  let lowered := text.data.map Char.toLower
  let cleaned := lowered.map pyCleanChar
  ((splitTokensAux cleaned []).map (fun l => String.mk l)).filter
    (fun t => t.length > 2)

/-- A document as consumed by the engine (a Python dict; `.get` defaults
are the field defaults: missing fields default to empty / `0.0`). -/
structure Doc where
  id : String := ""
  content : String := ""
  title : String := ""
  category : String := ""
  score : ℚ := 0
  metadata : List (String × String) := []
deriving DecidableEq, Repr

/-- The `SearchResult` dataclass. -/
structure SearchResult where
  id : String
  content : String
  score : ℚ
  title : String := ""
  category : String := ""
  metadata : List (String × String) := []
  source : String := "unknown"
  relevance_factors : List (String × FVal) := []
deriving DecidableEq, Repr

/-- The mutable state of a `BM25Scorer` after construction /
`index_documents`. -/
structure BM25State where
  k1 : ℚ := 3/2
  b : ℚ := 3/4
  docFreqs : List (String × ℕ) := []
  docLengths : List (String × ℕ) := []
  avgDocLength : ℚ := 0
  numDocs : ℕ := 0
  idfScores : List (String × ℚ) := []
deriving DecidableEq, Repr

/-- One term's contribution inside `BM25Scorer.score`:
`idf * (tf*(k1+1)) / (tf + k1*(1 - b + b*(docLen / max(avgDocLen, 1.0))))`. -/
def bm25TermScore (k1 b idf avgDocLength : ℚ) (docLength : ℕ) (tf : ℕ) : ℚ :=
  let numerator : ℚ := (tf : ℚ) * (k1 + 1)
  let denominator : ℚ :=
    (tf : ℚ) + k1 * (1 - b + b * ((docLength : ℚ) / max avgDocLength 1))
  idf * (numerator / denominator)

/-- Model of `BM25Scorer.score`: iterates over the full query token list (one
summand per occurrence of a token in the query), adding the BM25 term
formula for tokens present in the document. -/
def bm25Score (st : BM25State) (query : String) (document : Doc) : ℚ :=
  let queryTokens := tokenize query
  let docTokens := tokenize document.content
  let docLength := aGetD st.docLengths document.id docTokens.length
  (queryTokens.map (fun term =>
    if docTokens.count term > 0 then
      bm25TermScore st.k1 st.b (aGetD st.idfScores term 0) st.avgDocLength
        docLength (docTokens.count term)
    else 0)).sum

/-- Stable descending comparison used by every
`sort(key=lambda x: x.score, reverse=True)` / `sorted(…)` in the module. -/
def scoreLe (a b : SearchResult) : Bool :=
  decide (b.score ≤ a.score)

/-- Python's stable sort, descending by score. -/
def sortByScoreDesc (l : List SearchResult) : List SearchResult :=
  l.mergeSort scoreLe

/-- Model of `BM25Scorer.search`: score every document, keep strictly positive
scores, sort descending, return the first `k`. -/
def bm25Search (st : BM25State) (query : String) (documents : List Doc)
    (k : ℕ) : List SearchResult :=
  if documents.isEmpty then []
  else
    let scoredDocs := documents.filterMap (fun doc =>
      let score := bm25Score st query doc
      if score > 0 then
        some { id := doc.id, content := doc.content, score := score,
               title := doc.title, category := doc.category,
               metadata := doc.metadata, source := "keyword_bm25",
               relevance_factors := [("bm25_score", FVal.num score)] }
      else none)
    (sortByScoreDesc scoredDocs).take k

/-- Document-frequency update of `index_documents` for one document's
distinct terms (`Counter(tokens)` keys are first occurrences in order). -/
def bumpFreqs (freqs : List (String × ℕ)) (terms : List String) :
    List (String × ℕ) :=
  terms.foldl (fun f t => aSet f t (aGetD f t 0 + 1)) freqs

/-- Model of `BM25Scorer.index_documents`.  Here `npLog` is the (floating point,
transcendental) `np.log`, passed in explicitly. -/
def indexDocuments (npLog : ℚ → ℚ) (k1 b : ℚ) (documents : List Doc) :
    BM25State :=
  let numDocs := documents.length
  let step := documents.foldl
    (fun (st : List (String × ℕ) × List (String × ℕ)) doc =>
      let tokens := tokenize doc.content
      (aSet st.1 doc.id tokens.length, bumpFreqs st.2 tokens.dedup))
    ([], [])
  let docLengths := step.1
  let docFreqs := step.2
  let avgDocLength : ℚ :=
    if docLengths.isEmpty then 0
    else (docLengths.map (fun p => (p.2 : ℚ))).sum / (docLengths.length : ℚ)
  let idfScores := docFreqs.map (fun p =>
    (p.1, npLog (((numDocs : ℚ) - (p.2 : ℚ) + 1/2) / ((p.2 : ℚ) + 1/2) + 1)))
  { k1 := k1, b := b, docFreqs := docFreqs, docLengths := docLengths,
    avgDocLength := avgDocLength, numDocs := numDocs, idfScores := idfScores }

/-- Concrete stand-in for `np.log` used only to build concrete indexed
states in witnesses: like the real logarithm it is `0` at `1` and
strictly positive on arguments `> 1`, which is the only property the
concrete instantiations rely on. -/
def demoLog (x : ℚ) : ℚ := x - 1

/-- The fusion configuration read by `HybridSearchEngine.__init__` from
its config dict (`self.config.get('semantic_weight', 0.5)`, …). -/
structure HSConfig where
  semanticWeight : ℚ := 1/2
  keywordWeight : ℚ := 3/10
  graphWeight : ℚ := 1/5
deriving DecidableEq, Repr

/-- The `all_results` dict of `_fuse_results`. -/
abbrev Dict := List (String × SearchResult)

/-- One iteration of a per-source loop in `_fuse_results`: insert the
result (with `relevance_factors` reset to `{}`) when its id is new, then
store this source's RRF value and raw score in the stored entry's
`relevance_factors`.  The semantic loop uses keys
`semantic_rrf`/`semantic_score`, the keyword loop
`keyword_rrf`/`keyword_score`. -/
def fuseStep (rrfKey scoreKey : String) (result : SearchResult) (rank : ℕ)
    (allResults : Dict) : Dict :=
  let d1 := if aMem allResults result.id then allResults
            else aSet allResults result.id
              { result with relevance_factors := [] }
  aModify d1 result.id (fun r =>
    let newFactors :=
      aSet (aSet r.relevance_factors rrfKey
          (FVal.num (1 / (60 + (rank : ℚ)))))
        scoreKey (FVal.num result.score)
    { r with relevance_factors := newFactors })

/-- A per-source loop of `_fuse_results` (`enumerate(results, 1)`). -/
def processSourceResults (rrfKey scoreKey : String) :
    List SearchResult → ℕ → Dict → Dict
  | [], _, d => d
  | r :: rs, rank, d =>
    processSourceResults rrfKey scoreKey rs (rank + 1)
      (fuseStep rrfKey scoreKey r rank d)

/-- Number of sources a document appeared in, read off its
`relevance_factors`. -/
def appearanceCount (factors : List (String × FVal)) : ℕ :=
  (if aMem factors "semantic_rrf" then 1 else 0) +
  (if aMem factors "keyword_rrf" then 1 else 0) +
  (if aMem factors "graph_rrf" then 1 else 0)

/-- Python `factors.get(key, 0.0)` (the fusion factors are always numbers). -/
def factorGet (factors : List (String × FVal)) (k : String) : ℚ :=
  match aGet factors k with
  | some (FVal.num q) => q
  | _ => 0

/-- The weighted RRF combination of `_fuse_results` (before the
multi-source bonus). -/
def weightedRRF (cfg : HSConfig) (factors : List (String × FVal)) : ℚ :=
  cfg.semanticWeight * factorGet factors "semantic_rrf" +
  cfg.keywordWeight * factorGet factors "keyword_rrf" +
  cfg.graphWeight * factorGet factors "graph_rrf"

/-- Final fusion score of one document: the weighted RRF sum, multiplied
by `1.0 + 0.2 * appearance_count` only when `appearance_count > 1`. -/
def fusionScore (cfg : HSConfig) (factors : List (String × FVal)) : ℚ :=
  let fs := weightedRRF cfg factors
  if appearanceCount factors > 1
  then fs * (1 + (1/5) * (appearanceCount factors : ℚ))
  else fs

/-- Model of `HybridSearchEngine._fuse_results`.  The graph list parameter exists
in the source but no loop processes it (only the `graph_rrf` key, never
set, is read back). -/
def fuseResults (cfg : HSConfig)
    (semanticResults keywordResults graphResults : List SearchResult) :
    List SearchResult :=
  let d1 := processSourceResults "semantic_rrf" "semantic_score"
    semanticResults 1 []
  let d2 := processSourceResults "keyword_rrf" "keyword_score"
    keywordResults 1 d1
  let finalResults := d2.map (fun p =>
    { p.2 with score := fusionScore cfg p.2.relevance_factors,
               source := "hybrid" })
  sortByScoreDesc finalResults

/-- Explicit model of the reranker's real-world inputs: `now` is
`datetime.now()` and `fromIso` is `datetime.fromisoformat` composed with
the subtraction to days (`none` models the `except` path of an
unparseable timestamp). -/
structure Env where
  now : ℤ
  fromIso : String → Option ℤ

/-- Whether `pattern` is a prefix of `s` (Python `str.startswith` on the way to
substring containment). -/
def listStartsWith : List Char → List Char → Bool
  | [], _ => true
  | _ :: _, [] => false
  | p :: ps, s :: ss => p == s && listStartsWith ps ss

/-- Python's `pattern in s` substring test on char lists. -/
def listHasSub (pat : List Char) : List Char → Bool
  | [] => listStartsWith pat []
  | c :: ss => listStartsWith pat (c :: ss) || listHasSub pat ss

/-- Python's `needle in hay` on strings. -/
def strHasSub (needle hay : String) : Bool :=
  listHasSub needle.data hay.data

/-- Python `str.lower()` (ASCII). -/
def pyLowerStr (s : String) : String :=
  String.mk (s.data.map Char.toLower)

/-- The four rerank factors of `_rerank_results` for one result, in the
dict-insertion order of the source. -/
def rerankFactorsOf (env : Env) (queryLower : String)
    (queryTerms : List String) (r : SearchResult) : List (String × ℚ) :=
  let titleLower := pyLowerStr r.title
  let titleMatch : ℚ :=
    if queryTerms.any (fun term => strHasSub term titleLower) then 1/5 else 0
  let exactMatch : ℚ :=
    if strHasSub queryLower (pyLowerStr r.content) then 3/10 else 0
  let contentLength := r.content.length
  let lengthFactor : ℚ :=
    if contentLength < 500 then 1/10
    else if contentLength > 2000 then -(1/10)
    else 0
  let recency : ℚ :=
    match aGet r.metadata "timestamp" with
    | none => 0
    | some ts =>
      match env.fromIso ts with
      | none => 0
      | some docTime =>
        let ageDays := env.now - docTime
        if ageDays < 30 then 3/20
        else if ageDays < 90 then 1/20
        else 0
  [("title_match", titleMatch), ("exact_match", exactMatch),
   ("length_factor", lengthFactor), ("recency", recency)]

/-- The clamp `max(-0.3, min(0.5, rerank_adjustment))`. -/
def clampAdjustment (x : ℚ) : ℚ :=
  max (-(3/10)) (min (1/2) x)

/-- The body of the per-result loop of `_rerank_results`: multiply the
score by `1.0 + clamped sum of factors` and record the adjustment and
the raw factor breakdown in `relevance_factors`. -/
def applyRerank (env : Env) (queryLower : String) (queryTerms : List String)
    (r : SearchResult) : SearchResult :=
  let rerankFactors := rerankFactorsOf env queryLower queryTerms r
  let rerankAdjustment :=
    clampAdjustment ((rerankFactors.map (fun p => p.2)).sum)
  { r with
    score := r.score * (1 + rerankAdjustment),
    relevance_factors :=
      aSet (aSet r.relevance_factors "rerank_adjustment"
          (FVal.num rerankAdjustment))
        "rerank_factors" (FVal.nested rerankFactors) }

/-- Model of `HybridSearchEngine._rerank_results`. -/
def rerankResults (env : Env) (query : String)
    (results : List SearchResult) : List SearchResult :=
  let queryLower := pyLowerStr query
  let queryTerms := (tokenize query).dedup
  sortByScoreDesc (results.map (applyRerank env queryLower queryTerms))

/-- The engine's state: fusion config plus the BM25 scorer and its
document cache. -/
structure EngineState where
  cfg : HSConfig := {}
  bm25 : BM25State := {}
  indexedDocuments : List Doc := []
  indexInitialized : Bool := false

/-- Model of `HybridSearchEngine._semantic_search`: the collaborator's outcome is
passed in explicitly; a raised exception (`Except.error`) is caught and
turned into an empty list. -/
def semanticSearch (resp : Except Unit (List Doc)) : List SearchResult :=
  match resp with
  | Except.error _ => []
  | Except.ok docs => docs.map (fun d =>
      { id := d.id, content := d.content, score := d.score, title := d.title,
        category := d.category, metadata := d.metadata, source := "semantic",
        relevance_factors := [("semantic_score", FVal.num d.score)] })

/-- Model of `HybridSearchEngine._keyword_search`: empty when the index is not
initialized, BM25 search otherwise (`bm25Search` is total, so the
`except` branch is unreachable). -/
def keywordSearch (st : EngineState) (query : String) (k : ℕ) :
    List SearchResult :=
  if st.indexInitialized then bm25Search st.bm25 query st.indexedDocuments k
  else []

/-- Model of `HybridSearchEngine.hybrid_search`: run both branches (each branch's
failure already degraded to `[]`), fuse, optionally rerank, truncate. -/
def hybridSearch (env : Env) (st : EngineState)
    (resp : Except Unit (List Doc)) (query : String) (k : ℕ)
    (enableRerank : Bool) : List SearchResult :=
  let semanticResults := semanticSearch resp
  let keywordResults := keywordSearch st query (k * 2)
  let fused := fuseResults st.cfg semanticResults keywordResults []
  let fused2 := if enableRerank && !fused.isEmpty
                then rerankResults env query fused else fused
  fused2.take k

/-- The identity-carrying fields of a result: everything except `score`,
`source` and `relevance_factors`. -/
def core (r : SearchResult) :
    String × String × String × String × List (String × String) :=
  (r.id, r.content, r.title, r.category, r.metadata)

/-- What one fusion-loop iteration stores under `result.id`: the already
stored entry (or the fresh result with factors reset) with this source's
RRF value and raw score added to its factors. -/
def fuseEntry (rrfKey scoreKey : String) (result : SearchResult) (rank : ℕ)
    (existing : Option SearchResult) : SearchResult :=
  let base := match existing with
    | some v => v
    | none => { result with relevance_factors := [] }
  let newFactors :=
    aSet (aSet base.relevance_factors rrfKey
        (FVal.num (1 / (60 + (rank : ℚ)))))
      scoreKey (FVal.num result.score)
  { base with relevance_factors := newFactors }

/-- The dict `_fuse_results` has built when the final scoring loop runs. -/
def fusedDict (semanticResults keywordResults : List SearchResult) : Dict :=
  processSourceResults "keyword_rrf" "keyword_score" keywordResults 1
    (processSourceResults "semantic_rrf" "semantic_score" semanticResults 1 [])

/-- The spec's reading of `BM25Scorer.score` (claim C2): one summand per
**distinct** query token.  Clearly spec-derived, for comparison with the
source-derived `bm25Score`. -/
def bm25ScoreSpec (st : BM25State) (query : String) (document : Doc) : ℚ :=
  let queryTokens := (tokenize query).dedup
  let docTokens := tokenize document.content
  let docLength := aGetD st.docLengths document.id docTokens.length
  (queryTokens.map (fun term =>
    if docTokens.count term > 0 then
      bm25TermScore st.k1 st.b (aGetD st.idfScores term 0) st.avgDocLength
        docLength (docTokens.count term)
    else 0)).sum

/-- The clamped `rerank_adjustment` computed for one result. -/
def rerankAdjustmentOf (env : Env) (query : String) (r : SearchResult) : ℚ :=
  clampAdjustment
    (((rerankFactorsOf env (pyLowerStr query) ((tokenize query).dedup) r).map
      (fun p => p.2)).sum)

/-! ### Concrete objects for witnesses and counterexamples -/

/-- A one-document corpus. -/
def demoDoc : Doc := { id := "d1", content := "alpha" }

/-- The scorer state after indexing `[demoDoc]` (with `demoLog` standing
in for `np.log`; only positivity of the idf matters). -/
def demoSt : BM25State := indexDocuments demoLog (3/2) (3/4) [demoDoc]

/-- An initialized engine over the one-document corpus. -/
def demoEngine : EngineState :=
  { bm25 := demoSt, indexedDocuments := [demoDoc], indexInitialized := true }

/-- A clock/parser environment: today is day 10; the timestamp string
`2026-01-01` parses to day 0 (so documents carrying it are 10 days old). -/
def demoEnv : Env :=
  { now := 10, fromIso := fun s => if s = "2026-01-01" then some 0 else none }

/-- The same environment read 40 days later. -/
def lateEnv : Env :=
  { now := 50, fromIso := fun s => if s = "2026-01-01" then some 0 else none }

/-- A document carrying a parseable timestamp, as returned by the
semantic collaborator. -/
def tsDoc : Doc :=
  { id := "sd", content := "somecontent", score := 9/10,
    metadata := [("timestamp", "2026-01-01")] }

/-- A semantic result present in no other source. -/
def soloSemRes : SearchResult :=
  { id := "doc-001", content := "test", score := 9/10, title := "Test",
    source := "semantic",
    relevance_factors := [("semantic_score", FVal.num (9/10))] }

/-- The result `_fuse_results` produces for `soloSemRes` alone. -/
def soloFused : SearchResult :=
  { id := "doc-001", content := "test", score := 1/122, title := "Test",
    source := "hybrid",
    relevance_factors := [("semantic_rrf", FVal.num (1/61)),
                          ("semantic_score", FVal.num (9/10))] }

/-- A result triggering all four rerank bonuses for the query `alpha`
under `demoEnv`: query term in title, exact query substring in content,
short content, fresh timestamp. -/
def bonusRes : SearchResult :=
  { id := "d", content := "alpha beta", score := 4/5, title := "Alpha",
    metadata := [("timestamp", "2026-01-01")], source := "hybrid" }

/-- The keyword result `bm25Search demoSt "alpha" [demoDoc] 5` returns. -/
def demoKwResult : SearchResult :=
  { id := "d1", content := "alpha", score := 1/3, source := "keyword_bm25",
    relevance_factors := [("bm25_score", FVal.num (1/3))] }

/-- A semantic entry whose id also appears in the keyword list. -/
def wSemRes : SearchResult :=
  { id := "doc-7", content := "semantic text", score := 9/10,
    title := "Sem title", category := "cat-s",
    metadata := [("k", "v")], source := "semantic",
    relevance_factors := [("semantic_score", FVal.num (9/10))] }

/-- A keyword entry for the same id (its `bm25_score` factor is the
pre-fusion factor the fuser discards). -/
def wKwRes : SearchResult :=
  { id := "doc-7", content := "keyword text", score := 1/3,
    title := "Kw title", category := "cat-k", source := "keyword_bm25",
    relevance_factors := [("bm25_score", FVal.num (1/3))] }

/-! ### Association-list (Python dict) lemmas -/

theorem aGet_nil {α : Type} (k : String) : aGet ([] : List (String × α)) k = none := rfl

theorem aGet_cons {α : Type} (a : String × α) (d : List (String × α)) (k : String) :
    aGet (a :: d) k = if a.1 = k then some a.2 else aGet d k := by
  by_cases h : a.1 = k <;> simp [aGet, List.find?_cons, h]

theorem aGet_append {α : Type} (d e : List (String × α)) (k : String) :
    aGet (d ++ e) k = (aGet d k).or (aGet e k) := by
  induction d with
  | nil => simp [aGet]
  | cons a d ih =>
    by_cases h : a.1 = k <;> simp [aGet_cons, h, ih]

theorem aMem_false_iff {α : Type} (d : List (String × α)) (k : String) :
    aMem d k = false ↔ aGet d k = none := by
  cases h : aGet d k <;> simp [aMem, h]

theorem aGet_map_update {α : Type} (d : List (String × α)) (k k' : String) (v : α) :
    aGet (d.map (fun p => if p.1 = k then (k, v) else p)) k' =
      if k' = k then (if aMem d k then some v else none) else aGet d k' := by
  induction d with
  | nil => simp [aGet, aMem]
  | cons a d ih =>
    have hmem : aMem (a :: d) k = (decide (a.1 = k) || aMem d k) := by
      by_cases h : a.1 = k <;> simp [aMem, aGet_cons, h]
    by_cases hak : a.1 = k
    · by_cases hk' : k' = k
      · subst hk'
        simp [aGet_cons, hak, hmem, ih]
      · have hne2 : ¬ (a.1 = k') := by rw [hak]; exact fun h => hk' h.symm
        simp only [List.map_cons, if_pos hak]
        rw [aGet_cons, aGet_cons, if_neg (fun h => hk' h.symm), if_neg hne2]
        simp [ih, hk']
    · simp only [List.map_cons, if_neg hak]
      rw [aGet_cons, aGet_cons]
      by_cases hk' : a.1 = k'
      · have : k' ≠ k := fun h => hak (hk' ▸ h)
        simp [hk', this]
      · simp [hk', ih, hmem, hak]

theorem aGet_aSet {α : Type} (d : List (String × α)) (k k' : String) (v : α) :
    aGet (aSet d k v) k' = if k' = k then some v else aGet d k' := by
  unfold aSet
  by_cases hm : aMem d k
  · rw [if_pos hm, aGet_map_update]
    by_cases hk' : k' = k <;> simp [hk', hm]
  · rw [if_neg hm, aGet_append]
    by_cases hk' : k' = k
    · subst hk'
      have : aGet d k' = none := (aMem_false_iff d k').1 (by simpa using hm)
      simp [this, aGet_cons]
    · have hne : ¬ (k = k') := fun h => hk' h.symm
      cases hd : aGet d k' <;> simp [hd, aGet_cons, hne, aGet_nil, hk']

theorem aModify_cons {α : Type} (a : String × α) (d : List (String × α))
    (k : String) (f : α → α) :
    aModify (a :: d) k f =
      (if a.1 = k then (a.1, f a.2) else a) :: aModify d k f := by
  by_cases h : a.1 = k <;> simp [aModify, h]

theorem aGet_aModify {α : Type} (d : List (String × α)) (k k' : String) (f : α → α) :
    aGet (aModify d k f) k' =
      if k' = k then (aGet d k).map f else aGet d k' := by
  induction d with
  | nil => simp [aModify, aGet_nil]
  | cons a d ih =>
    rw [aModify_cons]
    by_cases hak : a.1 = k
    · rw [if_pos hak]
      by_cases hk' : k' = k
      · subst hk'
        simp [aGet_cons, hak, ih]
      · have hne2 : ¬ (a.1 = k') := by rw [hak]; exact fun h => hk' h.symm
        simp [aGet_cons, hne2, ih, hk']
    · rw [if_neg hak]
      by_cases hk' : a.1 = k'
      · have hne : k' ≠ k := fun h => hak (hk' ▸ h)
        simp [aGet_cons, hk', hne]
      · simp [aGet_cons, hk', hak, ih]

theorem mem_of_aGet {α : Type} {d : List (String × α)} {k : String} {v : α}
    (h : aGet d k = some v) : (k, v) ∈ d := by
  unfold aGet at h
  cases hf : d.find? (fun p => decide (p.1 = k)) with
  | none => rw [hf] at h; simp at h
  | some p =>
    rw [hf] at h
    have hp : p ∈ d := List.mem_of_find?_eq_some hf
    have hk : p.1 = k := by simpa using List.find?_some hf
    have hv : p.2 = v := by simpa using h
    have : p = (k, v) := by
      cases p; simp_all
    exact this ▸ hp

theorem aGet_of_mem_nodup {α : Type} {d : List (String × α)} {k : String} {v : α}
    (hnd : (d.map Prod.fst).Nodup) (h : (k, v) ∈ d) : aGet d k = some v := by
  induction d with
  | nil => simp at h
  | cons a d ih =>
    simp only [List.map_cons, List.nodup_cons] at hnd
    rcases List.mem_cons.1 h with h | h
    · subst h; simp [aGet_cons]
    · have hne : a.1 ≠ k := by
        intro hk
        exact hnd.1 (hk ▸ (List.mem_map.2 ⟨(k, v), h, rfl⟩))
      rw [aGet_cons, if_neg hne]
      exact ih hnd.2 h

theorem mem_aSet {α : Type} {d : List (String × α)} {k : String} {v : α} {p : String × α}
    (h : p ∈ aSet d k v) : p ∈ d ∨ p = (k, v) := by
  unfold aSet at h
  by_cases hm : aMem d k
  · rw [if_pos hm] at h
    rcases List.mem_map.1 h with ⟨q, hq, he⟩
    by_cases hqk : q.1 = k
    · right; rw [← he]; simp [hqk]
    · left; rw [← he]; simpa [hqk] using hq
  · rw [if_neg hm] at h
    rcases List.mem_append.1 h with h | h
    · exact Or.inl h
    · right; simpa using h

theorem mem_aModify {α : Type} {d : List (String × α)} {k : String} {f : α → α}
    {p : String × α} (h : p ∈ aModify d k f) :
    ∃ q ∈ d, p.1 = q.1 ∧ (p.2 = q.2 ∨ p.2 = f q.2) := by
  unfold aModify at h
  rcases List.mem_map.1 h with ⟨q, hq, he⟩
  by_cases hqk : q.1 = k
  · exact ⟨q, hq, by rw [← he]; simp [hqk]⟩
  · exact ⟨q, hq, by rw [← he]; simp [hqk]⟩

theorem keys_aModify {α : Type} (d : List (String × α)) (k : String) (f : α → α) :
    (aModify d k f).map Prod.fst = d.map Prod.fst := by
  unfold aModify
  rw [List.map_map]
  apply List.map_congr_left
  intro p _
  by_cases hpk : p.1 = k <;> simp [hpk]

theorem keys_aSet_of_mem {α : Type} (d : List (String × α)) (k : String) (v : α)
    (hm : aMem d k) : (aSet d k v).map Prod.fst = d.map Prod.fst := by
  unfold aSet
  rw [if_pos hm, List.map_map]
  apply List.map_congr_left
  intro p _
  by_cases hpk : p.1 = k <;> simp [hpk]

theorem keys_aSet_of_not_mem {α : Type} (d : List (String × α)) (k : String) (v : α)
    (hm : ¬ aMem d k) : (aSet d k v).map Prod.fst = d.map Prod.fst ++ [k] := by
  unfold aSet
  rw [if_neg hm]
  simp

theorem not_mem_keys_of_not_aMem {α : Type} {d : List (String × α)} {k : String}
    (hm : ¬ aMem d k) : k ∉ d.map Prod.fst := by
  intro hk
  rcases List.mem_map.1 hk with ⟨p, hp, he⟩
  apply hm
  have hne : aGet d k ≠ none := by
    unfold aGet
    cases hf : d.find? (fun q => decide (q.1 = k)) with
    | none =>
      rw [List.find?_eq_none] at hf
      exact absurd (by simpa using he) (by simpa using hf p hp)
    | some q => simp
  simpa [aMem, Option.isSome_iff_ne_none] using hne

theorem nodup_keys_aSet {α : Type} {d : List (String × α)} (k : String) (v : α)
    (hnd : (d.map Prod.fst).Nodup) : ((aSet d k v).map Prod.fst).Nodup := by
  by_cases hm : aMem d k
  · rw [keys_aSet_of_mem d k v hm]; exact hnd
  · rw [keys_aSet_of_not_mem d k v hm]
    simp only [List.nodup_append, List.nodup_cons]
    exact ⟨hnd, by simp, by
      intro a ha hb
      simp only [List.mem_singleton] at hb
      exact not_mem_keys_of_not_aMem hm (hb ▸ ha)⟩

theorem nodup_keys_aModify {α : Type} {d : List (String × α)} (k : String) (f : α → α)
    (hnd : (d.map Prod.fst).Nodup) : ((aModify d k f).map Prod.fst).Nodup := by
  rw [keys_aModify]; exact hnd

/-! ### Sorting lemmas -/

theorem scoreLe_trans : ∀ (a b c : SearchResult),
    scoreLe a b = true → scoreLe b c = true → scoreLe a c = true := by
  intro a b c hab hbc
  simp only [scoreLe, decide_eq_true_eq] at *
  exact le_trans hbc hab

theorem scoreLe_total : ∀ (a b : SearchResult),
    (scoreLe a b || scoreLe b a) = true := by
  intro a b
  simp only [scoreLe, Bool.or_eq_true, decide_eq_true_eq]
  exact le_total b.score a.score

/-- The stable sort orders scores descending. -/
theorem sortByScoreDesc_sorted (l : List SearchResult) :
    (sortByScoreDesc l).Pairwise (fun a b => b.score ≤ a.score) := by
  have h := List.sorted_mergeSort scoreLe_trans scoreLe_total l
  simpa [scoreLe] using h

theorem sortByScoreDesc_perm (l : List SearchResult) :
    (sortByScoreDesc l).Perm l :=
  List.mergeSort_perm l scoreLe

theorem length_sortByScoreDesc (l : List SearchResult) :
    (sortByScoreDesc l).length = l.length :=
  List.length_mergeSort l

theorem mem_sortByScoreDesc {l : List SearchResult} {a : SearchResult} :
    a ∈ sortByScoreDesc l ↔ a ∈ l :=
  List.mem_mergeSort

theorem sortByScoreDesc_eq_nil_iff {l : List SearchResult} :
    sortByScoreDesc l = [] ↔ l = [] := by
  constructor
  · intro h
    have := length_sortByScoreDesc l
    rw [h] at this
    exact List.length_eq_zero.1 this.symm
  · intro h; subst h
    have := length_sortByScoreDesc ([] : List SearchResult)
    simpa [List.length_eq_zero] using this

/-! ### Fusion lemmas -/

theorem aGet_fuseStep (rrfKey scoreKey : String) (res : SearchResult)
    (rank : ℕ) (d : Dict) (key : String) :
    aGet (fuseStep rrfKey scoreKey res rank d) key =
      if key = res.id
      then some (fuseEntry rrfKey scoreKey res rank (aGet d res.id))
      else aGet d key := by
  unfold fuseStep
  by_cases hm : aMem d res.id
  · rw [if_pos hm, aGet_aModify]
    cases hg : aGet d res.id with
    | none => exact absurd ((aMem_false_iff d res.id).2 hg) (by simpa using hm)
    | some v =>
      by_cases hk : key = res.id <;> simp [hk, hg, fuseEntry]
  · rw [if_neg hm, aGet_aModify]
    have hg : aGet d res.id = none := (aMem_false_iff d res.id).1 (by simpa using hm)
    by_cases hk : key = res.id
    · subst hk
      rw [if_pos rfl, if_pos rfl, aGet_aSet, if_pos rfl]
      simp [fuseEntry, hg]
    · rw [if_neg hk, if_neg hk, aGet_aSet, if_neg hk]

theorem fuseStep_ne_nil (rrfKey scoreKey : String) (res : SearchResult)
    (rank : ℕ) (d : Dict) : fuseStep rrfKey scoreKey res rank d ≠ [] := by
  intro h
  have hh : aGet (fuseStep rrfKey scoreKey res rank d) res.id =
      aGet ([] : Dict) res.id := by rw [h]
  rw [aGet_fuseStep, if_pos rfl] at hh
  simp [aGet_nil] at hh

theorem aModify_ne_nil {α : Type} {d : List (String × α)} {k : String}
    {f : α → α} (hd : d ≠ []) : aModify d k f ≠ [] := by
  cases d with
  | nil => exact absurd rfl hd
  | cons a d => rw [aModify_cons]; simp

theorem processSourceResults_cons (rrfKey scoreKey : String)
    (r : SearchResult) (rs : List SearchResult) (rank : ℕ) (d : Dict) :
    processSourceResults rrfKey scoreKey (r :: rs) rank d =
      processSourceResults rrfKey scoreKey rs (rank + 1)
        (fuseStep rrfKey scoreKey r rank d) := rfl

theorem processSourceResults_ne_nil_of_ne_nil (rrfKey scoreKey : String)
    (rs : List SearchResult) (rank : ℕ) (d : Dict) (hd : d ≠ []) :
    processSourceResults rrfKey scoreKey rs rank d ≠ [] := by
  induction rs generalizing rank d with
  | nil => exact hd
  | cons r rs ih =>
    rw [processSourceResults_cons]
    exact ih (rank + 1) _ (fuseStep_ne_nil _ _ _ _ _)

theorem aGet_processSourceResults_not_mem (rrfKey scoreKey : String)
    (rs : List SearchResult) (rank : ℕ) (d : Dict) (key : String)
    (h : key ∉ rs.map SearchResult.id) :
    aGet (processSourceResults rrfKey scoreKey rs rank d) key = aGet d key := by
  induction rs generalizing rank d with
  | nil => rfl
  | cons r rs ih =>
    simp only [List.map_cons, List.mem_cons, not_or] at h
    rw [processSourceResults_cons, ih _ _ h.2, aGet_fuseStep, if_neg h.1]

theorem aGet_processSourceResults_split (rrfKey scoreKey : String)
    (l1 l2 : List SearchResult) (r : SearchResult) (rank : ℕ) (d : Dict)
    (h1 : r.id ∉ l1.map SearchResult.id) (h2 : r.id ∉ l2.map SearchResult.id) :
    aGet (processSourceResults rrfKey scoreKey (l1 ++ r :: l2) rank d) r.id =
      some (fuseEntry rrfKey scoreKey r (rank + l1.length) (aGet d r.id)) := by
  induction l1 generalizing rank d with
  | nil =>
    rw [List.nil_append, processSourceResults_cons,
      aGet_processSourceResults_not_mem _ _ _ _ _ _ h2,
      aGet_fuseStep, if_pos rfl]
    simp
  | cons a l1 ih =>
    simp only [List.map_cons, List.mem_cons, not_or] at h1
    rw [List.cons_append, processSourceResults_cons, ih _ _ h1.2]
    rw [aGet_fuseStep, if_neg h1.1]
    have : rank + 1 + l1.length = rank + (l1.length + 1) := by omega
    simp [this]

theorem core_mem_fuseStep {rrfKey scoreKey : String} {res : SearchResult}
    {rank : ℕ} {d : Dict} {p : String × SearchResult}
    (h : p ∈ fuseStep rrfKey scoreKey res rank d) :
    (∃ q ∈ d, core p.2 = core q.2) ∨ core p.2 = core res := by
  unfold fuseStep at h
  rcases mem_aModify h with ⟨q, hq, _, hval⟩
  have hcq : core p.2 = core q.2 := by
    rcases hval with h | h <;> rw [h] <;> rfl
  by_cases hm : aMem d res.id
  · rw [if_pos hm] at hq
    exact Or.inl ⟨q, hq, hcq⟩
  · rw [if_neg hm] at hq
    rcases mem_aSet hq with hq | hq
    · exact Or.inl ⟨q, hq, hcq⟩
    · right
      rw [hcq, hq]
      rfl

theorem core_mem_processSourceResults {rrfKey scoreKey : String}
    {rs : List SearchResult} {rank : ℕ} {d : Dict} {p : String × SearchResult}
    (h : p ∈ processSourceResults rrfKey scoreKey rs rank d) :
    (∃ q ∈ d, core p.2 = core q.2) ∨ ∃ r0 ∈ rs, core p.2 = core r0 := by
  induction rs generalizing rank d with
  | nil => exact Or.inl ⟨p, h, rfl⟩
  | cons r rs ih =>
    rw [processSourceResults_cons] at h
    rcases ih h with ⟨q, hq, hcq⟩ | ⟨r0, hr0, hc⟩
    · rcases core_mem_fuseStep hq with ⟨q2, hq2, hcq2⟩ | hc
      · exact Or.inl ⟨q2, hq2, hcq.trans hcq2⟩
      · exact Or.inr ⟨r, List.mem_cons_self r rs, hcq.trans hc⟩
    · exact Or.inr ⟨r0, List.mem_cons_of_mem r hr0, hc⟩

theorem keyid_mem_fuseStep {rrfKey scoreKey : String} {res : SearchResult}
    {rank : ℕ} {d : Dict} (hinv : ∀ p ∈ d, (p : String × SearchResult).2.id = p.1) :
    ∀ p ∈ fuseStep rrfKey scoreKey res rank d, p.2.id = p.1 := by
  intro p hp
  unfold fuseStep at hp
  rcases mem_aModify hp with ⟨q, hq, hfst, hval⟩
  have hid : p.2.id = q.2.id := by
    rcases hval with h | h <;> rw [h] <;> rfl
  by_cases hm : aMem d res.id
  · rw [if_pos hm] at hq
    rw [hid, hfst]
    exact hinv q hq
  · rw [if_neg hm] at hq
    rcases mem_aSet hq with hq | hq
    · rw [hid, hfst]
      exact hinv q hq
    · rw [hid, hfst, hq]

theorem keyid_mem_processSourceResults {rrfKey scoreKey : String}
    {rs : List SearchResult} {rank : ℕ} {d : Dict}
    (hinv : ∀ p ∈ d, (p : String × SearchResult).2.id = p.1) :
    ∀ p ∈ processSourceResults rrfKey scoreKey rs rank d, p.2.id = p.1 := by
  induction rs generalizing rank d with
  | nil => exact hinv
  | cons r rs ih =>
    rw [processSourceResults_cons]
    exact ih (keyid_mem_fuseStep hinv)

theorem nodup_keys_fuseStep {rrfKey scoreKey : String} {res : SearchResult}
    {rank : ℕ} {d : Dict} (hnd : (d.map Prod.fst).Nodup) :
    ((fuseStep rrfKey scoreKey res rank d).map Prod.fst).Nodup := by
  unfold fuseStep
  by_cases hm : aMem d res.id
  · rw [if_pos hm]
    exact nodup_keys_aModify _ _ hnd
  · rw [if_neg hm]
    exact nodup_keys_aModify _ _ (nodup_keys_aSet _ _ hnd)

theorem nodup_keys_processSourceResults {rrfKey scoreKey : String}
    {rs : List SearchResult} {rank : ℕ} {d : Dict}
    (hnd : (d.map Prod.fst).Nodup) :
    ((processSourceResults rrfKey scoreKey rs rank d).map Prod.fst).Nodup := by
  induction rs generalizing rank d with
  | nil => exact hnd
  | cons r rs ih =>
    rw [processSourceResults_cons]
    exact ih (nodup_keys_fuseStep hnd)

theorem fuseResults_eq (cfg : HSConfig)
    (semanticResults keywordResults graphResults : List SearchResult) :
    fuseResults cfg semanticResults keywordResults graphResults =
      sortByScoreDesc ((fusedDict semanticResults keywordResults).map (fun p =>
        { p.2 with score := fusionScore cfg p.2.relevance_factors,
                   source := "hybrid" })) := rfl

theorem mem_fuseResults {cfg : HSConfig}
    {semanticResults keywordResults graphResults : List SearchResult}
    {r : SearchResult} (h : r ∈ fuseResults cfg semanticResults keywordResults graphResults) :
    ∃ p ∈ fusedDict semanticResults keywordResults,
      r = { p.2 with score := fusionScore cfg p.2.relevance_factors,
                     source := "hybrid" } := by
  rw [fuseResults_eq] at h
  rcases List.mem_map.1 (mem_sortByScoreDesc.1 h) with ⟨p, hp, he⟩
  exact ⟨p, hp, he.symm⟩

theorem score_mem_fuseResults {cfg : HSConfig}
    {semanticResults keywordResults graphResults : List SearchResult}
    {r : SearchResult} (h : r ∈ fuseResults cfg semanticResults keywordResults graphResults) :
    r.score = fusionScore cfg r.relevance_factors ∧ r.source = "hybrid" := by
  rcases mem_fuseResults h with ⟨p, _, he⟩
  subst he
  exact ⟨rfl, rfl⟩

theorem fuseResults_ne_nil {cfg : HSConfig}
    {semanticResults keywordResults graphResults : List SearchResult}
    (h : semanticResults ≠ [] ∨ keywordResults ≠ []) :
    fuseResults cfg semanticResults keywordResults graphResults ≠ [] := by
  have hd : fusedDict semanticResults keywordResults ≠ [] := by
    unfold fusedDict
    rcases h with h | h
    · apply processSourceResults_ne_nil_of_ne_nil
      cases semanticResults with
      | nil => exact absurd rfl h
      | cons a l =>
        rw [processSourceResults_cons]
        exact processSourceResults_ne_nil_of_ne_nil _ _ _ _ _
          (fuseStep_ne_nil _ _ _ _ _)
    · cases keywordResults with
      | nil => exact absurd rfl h
      | cons a l =>
        rw [processSourceResults_cons]
        exact processSourceResults_ne_nil_of_ne_nil _ _ _ _ _
          (fuseStep_ne_nil _ _ _ _ _)
  rw [fuseResults_eq]
  intro hc
  rcases List.map_eq_nil_iff.1 (sortByScoreDesc_eq_nil_iff.1 hc) with h0
  exact hd h0

theorem fuseResults_sorted (cfg : HSConfig)
    (semanticResults keywordResults graphResults : List SearchResult) :
    (fuseResults cfg semanticResults keywordResults graphResults).Pairwise
      (fun a b => b.score ≤ a.score) := by
  rw [fuseResults_eq]
  exact sortByScoreDesc_sorted _

/-! ### Rerank lemmas -/

theorem core_applyRerank (env : Env) (queryLower : String)
    (queryTerms : List String) (r : SearchResult) :
    core (applyRerank env queryLower queryTerms r) = core r := rfl

theorem score_applyRerank (env : Env) (queryLower : String)
    (queryTerms : List String) (r : SearchResult) :
    (applyRerank env queryLower queryTerms r).score =
      r.score * (1 + clampAdjustment
        (((rerankFactorsOf env queryLower queryTerms r).map (fun p => p.2)).sum)) := rfl

theorem clampAdjustment_le (x : ℚ) : clampAdjustment x ≤ 1/2 := by
  unfold clampAdjustment
  apply max_le
  · norm_num
  · exact min_le_left _ _

theorem le_clampAdjustment (x : ℚ) : -(3/10) ≤ clampAdjustment x :=
  le_max_left _ _

theorem rerankResults_eq (env : Env) (query : String)
    (results : List SearchResult) :
    rerankResults env query results =
      sortByScoreDesc (results.map
        (applyRerank env (pyLowerStr query) ((tokenize query).dedup))) := rfl

theorem length_rerankResults (env : Env) (query : String)
    (results : List SearchResult) :
    (rerankResults env query results).length = results.length := by
  rw [rerankResults_eq, length_sortByScoreDesc, List.length_map]

theorem mem_rerankResults {env : Env} {query : String}
    {results : List SearchResult} {r : SearchResult}
    (h : r ∈ rerankResults env query results) :
    ∃ r0 ∈ results,
      r = applyRerank env (pyLowerStr query) ((tokenize query).dedup) r0 := by
  rw [rerankResults_eq] at h
  rcases List.mem_map.1 (mem_sortByScoreDesc.1 h) with ⟨r0, hr0, he⟩
  exact ⟨r0, hr0, he.symm⟩

theorem rerankResults_sorted (env : Env) (query : String)
    (results : List SearchResult) :
    (rerankResults env query results).Pairwise (fun a b => b.score ≤ a.score) := by
  rw [rerankResults_eq]
  exact sortByScoreDesc_sorted _

/-! ### Orchestration lemmas -/

theorem hybridSearch_eq (env : Env) (st : EngineState)
    (resp : Except Unit (List Doc)) (query : String) (k : ℕ)
    (enableRerank : Bool) :
    hybridSearch env st resp query k enableRerank =
      (if enableRerank && !(fuseResults st.cfg (semanticSearch resp)
            (keywordSearch st query (k * 2)) []).isEmpty
       then rerankResults env query (fuseResults st.cfg (semanticSearch resp)
            (keywordSearch st query (k * 2)) [])
       else fuseResults st.cfg (semanticSearch resp)
            (keywordSearch st query (k * 2)) []).take k := rfl

theorem hybridSearch_sorted (env : Env) (st : EngineState)
    (resp : Except Unit (List Doc)) (query : String) (k : ℕ)
    (enableRerank : Bool) :
    (hybridSearch env st resp query k enableRerank).Pairwise
      (fun a b => b.score ≤ a.score) := by
  rw [hybridSearch_eq]
  apply List.Pairwise.sublist (List.take_sublist _ _)
  by_cases h : (enableRerank && !(fuseResults st.cfg (semanticSearch resp)
      (keywordSearch st query (k * 2)) []).isEmpty) = true
  · rw [if_pos h]
    exact rerankResults_sorted _ _ _
  · rw [if_neg h]
    exact fuseResults_sorted _ _ _ _

theorem hybridSearch_error_eq_ok_nil (env : Env) (st : EngineState)
    (e : Unit) (query : String) (k : ℕ) (enableRerank : Bool) :
    hybridSearch env st (Except.error e) query k enableRerank =
      hybridSearch env st (Except.ok []) query k enableRerank := rfl

theorem hybridSearch_ne_nil (env : Env) (st : EngineState)
    (resp : Except Unit (List Doc)) (query : String) (k : ℕ)
    (enableRerank : Bool) (hk : 1 ≤ k)
    (hne : semanticSearch resp ≠ [] ∨ keywordSearch st query (k * 2) ≠ []) :
    hybridSearch env st resp query k enableRerank ≠ [] := by
  rw [hybridSearch_eq]
  have hfused : fuseResults st.cfg (semanticSearch resp)
      (keywordSearch st query (k * 2)) [] ≠ [] := fuseResults_ne_nil hne
  intro hc
  rcases List.take_eq_nil_iff.1 hc with h | h
  · omega
  · by_cases hb : (enableRerank && !(fuseResults st.cfg (semanticSearch resp)
        (keywordSearch st query (k * 2)) []).isEmpty) = true
    · rw [if_pos hb] at h
      rw [rerankResults_eq] at h
      rcases List.map_eq_nil_iff.1 (sortByScoreDesc_eq_nil_iff.1 h) with h0
      exact hfused h0
    · rw [if_neg hb] at h
      exact hfused h

/-! ### Claim theorems -/

/-- C6: for every query and corpus, BM25 search scores every document,
keeps only those with score > 0 (each returned result's score is the
BM25 score of some corpus document), sorts descending by score and
returns at most the first `k`; an empty corpus, or a corpus where every
document scores 0, yields an empty result list rather than an error
(the function is total). -/
theorem C6_bm25_search_contract (st : BM25State) (query : String)
    (documents : List Doc) (k : ℕ) :
    (bm25Search st query documents k).length ≤ k ∧
    (bm25Search st query documents k).Pairwise (fun a b => b.score ≤ a.score) ∧
    (∀ r ∈ bm25Search st query documents k,
      0 < r.score ∧ ∃ d ∈ documents, r.score = bm25Score st query d) ∧
    bm25Search st query [] k = [] ∧
    ((∀ d ∈ documents, bm25Score st query d = 0) →
      bm25Search st query documents k = []) := by
  refine ⟨?_, ?_, ?_, rfl, ?_⟩
  · unfold bm25Search
    by_cases hd : documents.isEmpty
    · rw [if_pos hd]; simp
    · rw [if_neg hd]
      exact List.length_take_le _ _
  · unfold bm25Search
    by_cases hd : documents.isEmpty
    · rw [if_pos hd]; simp
    · rw [if_neg hd]
      exact List.Pairwise.sublist (List.take_sublist _ _) (sortByScoreDesc_sorted _)
  · intro r hr
    unfold bm25Search at hr
    by_cases hd : documents.isEmpty
    · rw [if_pos hd] at hr; simp at hr
    · rw [if_neg hd] at hr
      have hr2 := mem_sortByScoreDesc.1 (List.mem_of_mem_take hr)
      rcases List.mem_filterMap.1 hr2 with ⟨d, hdmem, hfd⟩
      by_cases hpos : bm25Score st query d > 0
      · rw [if_pos hpos] at hfd
        have := Option.some.inj hfd
        refine ⟨?_, d, hdmem, ?_⟩
        · rw [← this]; exact hpos
        · rw [← this]
      · rw [if_neg hpos] at hfd
        exact absurd hfd (by simp)
  · intro hz
    unfold bm25Search
    by_cases hd : documents.isEmpty
    · rw [if_pos hd]
    · rw [if_neg hd]
      have hfm : documents.filterMap (fun doc =>
          let score := bm25Score st query doc
          if score > 0 then
            some { id := doc.id, content := doc.content, score := score,
                   title := doc.title, category := doc.category,
                   metadata := doc.metadata, source := "keyword_bm25",
                   relevance_factors := [("bm25_score", FVal.num score)] }
          else (none : Option SearchResult)) = [] := by
        rw [List.filterMap_eq_nil_iff]
        intro d hdmem
        have := hz d hdmem
        simp [this]
      rw [hfm]
      have hs : sortByScoreDesc [] = [] := sortByScoreDesc_eq_nil_iff.2 rfl
      simp [hs]

unseal Rat.add Rat.mul Rat.inv Rat.sub in
/-- Witness for C6 at a concrete corpus all of whose documents score 0
for the query (no shared token): the search returns the empty list. -/
theorem C6_witness : bm25Search demoSt "zzzz" [demoDoc] 5 = [] := by
  have h := (C6_bm25_search_contract demoSt "zzzz" [demoDoc] 5).2.2.2.2
  apply h
  intro d hd
  simp only [List.mem_singleton] at hd
  subst hd
  decide

/-- C7 (amended): every result of BM25 keyword search carries
`source = "keyword_bm25"` (not `"keyword"` as the spec says). -/
theorem C7_bm25_search_source (st : BM25State) (query : String)
    (documents : List Doc) (k : ℕ) :
    ∀ r ∈ bm25Search st query documents k, r.source = "keyword_bm25" := by
  intro r hr
  unfold bm25Search at hr
  by_cases hd : documents.isEmpty
  · rw [if_pos hd] at hr; simp at hr
  · rw [if_neg hd] at hr
    have hr2 := mem_sortByScoreDesc.1 (List.mem_of_mem_take hr)
    rcases List.mem_filterMap.1 hr2 with ⟨d, _, hfd⟩
    by_cases hpos : bm25Score st query d > 0
    · rw [if_pos hpos] at hfd
      have := Option.some.inj hfd
      rw [← this]
    · rw [if_neg hpos] at hfd
      exact absurd hfd (by simp)

unseal Rat.add Rat.mul Rat.inv Rat.sub List.merge List.mergeSort in
/-- Witness for C7's amended statement: the concrete result returned for
query `alpha` over the demo corpus carries source `keyword_bm25`. -/
theorem C7_witness : demoKwResult.source = "keyword_bm25" :=
  C7_bm25_search_source demoSt "alpha" [demoDoc] 5 demoKwResult (by decide)

unseal Rat.add Rat.mul Rat.inv Rat.sub List.merge List.mergeSort in
/-- Counterexample to C7 as stated: the same concrete search returns a
result whose `source` is `"keyword_bm25"`, which is not the string
`"keyword"` required by the claim. -/
theorem C7_counterexample :
    (bm25Search demoSt "alpha" [demoDoc] 5).map (fun r => r.source) =
      ["keyword_bm25"] ∧ "keyword_bm25" ≠ "keyword" := by
  constructor
  · decide
  · decide

/-- C8: a query sharing no token with the document scores exactly 0;
tokenize and score are total by construction, and on the empty string /
empty corpus they yield zero or empty results. -/
theorem C8_no_overlap_zero (st : BM25State) (query : String) (d : Doc) (k : ℕ) :
    ((∀ t ∈ tokenize query, t ∉ tokenize d.content) → bm25Score st query d = 0) ∧
    bm25Score st "" d = 0 ∧
    tokenize "" = [] ∧
    bm25Search st query [] k = [] := by
  refine ⟨?_, ?_, rfl, rfl⟩
  · intro h
    unfold bm25Score
    apply List.sum_eq_zero
    intro x hx
    rcases List.mem_map.1 hx with ⟨t, ht, hxt⟩
    have hnotin : t ∉ tokenize d.content := h t ht
    have hcz : (tokenize d.content).count t = 0 := List.count_eq_zero.2 hnotin
    rw [← hxt]
    simp [hcz]
  · unfold bm25Score
    have h0 : tokenize "" = [] := rfl
    rw [h0]
    rfl

/-- Witness for C8 at a concrete disjoint query/document pair. -/
theorem C8_witness : bm25Score demoSt "zzzz qqqq" demoDoc = 0 :=
  (C8_no_overlap_zero demoSt "zzzz qqqq" demoDoc 5).1 (by decide)

/-- C9: the per-term BM25 contribution is monotone non-decreasing in the
term frequency, for fixed positive `k1`, `b ∈ [0,1]`, non-negative idf,
and fixed document length and average length. -/
theorem C9_term_monotone (k1 b idf avg : ℚ) (docLen : ℕ) (tf1 tf2 : ℕ)
    (hk1 : 0 < k1) (hb0 : 0 ≤ b) (hb1 : b ≤ 1) (hidf : 0 ≤ idf)
    (h : tf1 ≤ tf2) :
    bm25TermScore k1 b idf avg docLen tf1 ≤ bm25TermScore k1 b idf avg docLen tf2 := by
  unfold bm25TermScore
  have hr : (0:ℚ) ≤ (docLen : ℚ) / max avg 1 := by
    apply div_nonneg (by positivity)
    exact le_trans (by norm_num) (le_max_right avg 1)
  have hCnn : 0 ≤ k1 * (1 - b + b * ((docLen : ℚ) / max avg 1)) := by
    apply mul_nonneg (le_of_lt hk1)
    nlinarith
  set C := k1 * (1 - b + b * ((docLen : ℚ) / max avg 1)) with hC
  apply mul_le_mul_of_nonneg_left _ hidf
  rcases Nat.eq_zero_or_pos tf1 with h0 | hpos
  · subst h0
    simp only [Nat.cast_zero, zero_mul, zero_div, zero_add]
    apply div_nonneg
    · positivity
    · positivity
  · have h1 : (0:ℚ) < (tf1 : ℚ) + C := by
      have : (1:ℚ) ≤ (tf1 : ℚ) := by exact_mod_cast hpos
      linarith
    have h2 : (0:ℚ) < (tf2 : ℚ) + C := by
      have : (tf1 : ℚ) ≤ (tf2 : ℚ) := by exact_mod_cast h
      linarith
    rw [div_le_div_iff h1 h2]
    have hcast : (tf1 : ℚ) ≤ (tf2 : ℚ) := by exact_mod_cast h
    nlinarith [mul_nonneg hCnn (sub_nonneg.2 hcast)]

/-- Witness for C9 at concrete parameters (`tf` 2 vs 3). -/
theorem C9_witness :
    bm25TermScore (3/2) (3/4) (1/3) 1 5 2 ≤ bm25TermScore (3/2) (3/4) (1/3) 1 5 3 :=
  C9_term_monotone (3/2) (3/4) (1/3) 1 5 2 3 (by norm_num) (by norm_num)
    (by norm_num) (by norm_num) (by norm_num)

/-- Summing an indicator-weighted map over a duplicate-free list picks
out the one matching element. -/
theorem sum_map_ite_eq {α : Type} [DecidableEq α] (f : α → ℚ) (a : α) :
    ∀ (l : List α), l.Nodup → a ∈ l →
      (l.map (fun x => if x = a then f x else 0)).sum = f a := by
  intro l
  induction l with
  | nil => intro _ h; simp at h
  | cons b l ih =>
    intro hnd hmem
    simp only [List.nodup_cons] at hnd
    rcases List.mem_cons.1 hmem with h | h
    · subst h
      simp only [List.map_cons, if_pos rfl, List.sum_cons]
      have hz : (l.map (fun x => if x = a then f x else 0)).sum = 0 := by
        apply List.sum_eq_zero
        intro x hx
        rcases List.mem_map.1 hx with ⟨y, hy, hxy⟩
        have hne : y ≠ a := fun he => hnd.1 (he ▸ hy)
        rw [← hxy, if_neg hne]
      rw [hz, add_zero]
      simp
    · have hne : ¬ (b = a) := fun he => hnd.1 (he ▸ h)
      simp only [List.map_cons, if_neg hne, List.sum_cons, zero_add]
      exact ih hnd.2 h

theorem sum_map_add_q {α : Type} (l : List α) (g h : α → ℚ) :
    (l.map (fun a => g a + h a)).sum = (l.map g).sum + (l.map h).sum := by
  induction l with
  | nil => simp
  | cons b l ih => simp [ih]; ring

/-- A sum over a list equals the multiplicity-weighted sum over its
deduplication. -/
theorem sum_map_eq_dedup_count {α : Type} [DecidableEq α] (l : List α) (f : α → ℚ) :
    (l.map f).sum = (l.dedup.map (fun a => (l.count a : ℚ) * f a)).sum := by
  induction l with
  | nil => simp
  | cons b l ih =>
    by_cases hb : b ∈ l
    · rw [List.dedup_cons_of_mem hb]
      have hcount : ∀ a ∈ l.dedup,
          (((b :: l).count a : ℚ)) * f a =
            ((l.count a : ℚ)) * f a + (if a = b then (1:ℚ) else 0) * f a := by
        intro a _
        by_cases hab : a = b
        · subst hab
          rw [List.count_cons_self, if_pos rfl]
          push_cast
          ring
        · rw [List.count_cons_of_ne hab, if_neg hab]
          ring
      rw [List.map_congr_left hcount, sum_map_add_q]
      have hpick : (l.dedup.map (fun a => (if a = b then (1:ℚ) else 0) * f a)).sum = f b := by
        have heq : ∀ a ∈ l.dedup,
            (if a = b then (1:ℚ) else 0) * f a = (if a = b then f a else 0) := by
          intro a _
          by_cases hab : a = b <;> simp [hab]
        rw [List.map_congr_left heq]
        exact sum_map_ite_eq f b l.dedup l.nodup_dedup (List.mem_dedup.2 hb)
      rw [hpick, ← ih]
      simp [add_comm]
    · rw [List.dedup_cons_of_not_mem hb]
      simp only [List.map_cons, List.sum_cons]
      have hcb : ((b :: l).count b : ℚ) = 1 := by
        rw [List.count_cons_self, List.count_eq_zero.2 hb]
        norm_num
      have hcount : ∀ a ∈ l.dedup,
          (((b :: l).count a : ℚ)) * f a = ((l.count a : ℚ)) * f a := by
        intro a ha
        have hab : a ≠ b := fun he => hb (he ▸ List.mem_dedup.1 ha)
        rw [List.count_cons_of_ne hab]
      rw [hcb, List.map_congr_left hcount, ← ih, one_mul]

/-- C2 (amended): the BM25 score is the sum over the **distinct** query
tokens present in the document of the query-multiplicity of the token
times the per-term BM25 formula — a query token repeated in the query
contributes once **per occurrence**, not once. -/
theorem C2_score_query_multiplicity (st : BM25State) (query : String) (d : Doc) :
    bm25Score st query d =
      ((tokenize query).dedup.map (fun term =>
        ((tokenize query).count term : ℚ) *
          (if (tokenize d.content).count term > 0 then
             bm25TermScore st.k1 st.b (aGetD st.idfScores term 0) st.avgDocLength
               (aGetD st.docLengths d.id (tokenize d.content).length)
               ((tokenize d.content).count term)
           else 0))).sum := by
  unfold bm25Score
  exact sum_map_eq_dedup_count (tokenize query) _

unseal Rat.add Rat.mul Rat.inv Rat.sub in
/-- Counterexample to C2 as stated: for the one-token document `alpha`
and the query `alpha alpha`, the source's score is twice the per-term
contribution (2/3), while the spec's distinct-token sum gives 1/3. -/
theorem C2_counterexample :
    bm25Score demoSt "alpha alpha" demoDoc = 2/3 ∧
    bm25ScoreSpec demoSt "alpha alpha" demoDoc = 1/3 ∧
    bm25Score demoSt "alpha alpha" demoDoc ≠
      bm25ScoreSpec demoSt "alpha alpha" demoDoc := by
  refine ⟨by decide, by decide, by decide⟩

/-- C5 (amended): `hybrid_search` is deterministic given a fixed index
snapshot, fixed collaborator responses, fixed configuration **and a
fixed clock reading / timestamp parser** (the reranker's recency factor
reads `datetime.now()`). -/
theorem C5_deterministic (env1 env2 : Env) (st1 st2 : EngineState)
    (resp1 resp2 : Except Unit (List Doc)) (q1 q2 : String) (k1 k2 : ℕ)
    (er1 er2 : Bool) (henv : env1 = env2) (hst : st1 = st2)
    (hresp : resp1 = resp2) (hq : q1 = q2) (hk : k1 = k2) (her : er1 = er2) :
    hybridSearch env1 st1 resp1 q1 k1 er1 =
      hybridSearch env2 st2 resp2 q2 k2 er2 := by
  subst henv; subst hst; subst hresp; subst hq; subst hk; subst her; rfl

/-- Witness for C5's amended statement at concrete inputs. -/
theorem C5_witness :
    hybridSearch demoEnv demoEngine (Except.ok [tsDoc]) "alpha" 1 true =
      hybridSearch demoEnv demoEngine (Except.ok [tsDoc]) "alpha" 1 true :=
  C5_deterministic demoEnv demoEnv demoEngine demoEngine
    (Except.ok [tsDoc]) (Except.ok [tsDoc]) "alpha" "alpha" 1 1 true true
    rfl rfl rfl rfl rfl rfl

unseal Rat.add Rat.mul Rat.inv Rat.sub List.merge List.mergeSort in
/-- Counterexample to C5 as stated: same query, same `k`, same
`enableRerank`, same (empty) index snapshot, same semantic response and
same configuration, but the wall clock read by the reranker differs
(day 10 vs day 50), so the recency bonus — and with it the returned
scores — differ. -/
theorem C5_counterexample :
    hybridSearch demoEnv {} (Except.ok [tsDoc]) "zzzz" 1 true ≠
      hybridSearch lateEnv {} (Except.ok [tsDoc]) "zzzz" 1 true := by decide

/-- C4: the reranker clamps the sum of the four factors to
`[-0.3, 0.5]` and multiplies each score by `1 + clampedSum`; the output
is the input reranked elementwise (same length), re-sorted descending;
a result whose four factors are at their maxima (sum `0.75`) clamps to
`0.5` and gets exactly `score * 1.5`. -/
theorem C4_rerank_contract (env : Env) (query : String)
    (results : List SearchResult) :
    (rerankResults env query results).length = results.length ∧
    (rerankResults env query results).Pairwise (fun a b => b.score ≤ a.score) ∧
    (∀ r ∈ rerankResults env query results, ∃ r0 ∈ results,
      r = applyRerank env (pyLowerStr query) ((tokenize query).dedup) r0 ∧
      r.score = r0.score * (1 + rerankAdjustmentOf env query r0) ∧
      -(3/10) ≤ rerankAdjustmentOf env query r0 ∧
      rerankAdjustmentOf env query r0 ≤ 1/2) ∧
    (∀ r0 : SearchResult,
      rerankFactorsOf env (pyLowerStr query) ((tokenize query).dedup) r0 =
        [("title_match", 1/5), ("exact_match", 3/10),
         ("length_factor", 1/10), ("recency", 3/20)] →
      (applyRerank env (pyLowerStr query) ((tokenize query).dedup) r0).score =
        r0.score * (3/2)) := by
  refine ⟨length_rerankResults _ _ _, rerankResults_sorted _ _ _, ?_, ?_⟩
  · intro r hr
    rcases mem_rerankResults hr with ⟨r0, hr0, he⟩
    refine ⟨r0, hr0, he, ?_, le_clampAdjustment _, clampAdjustment_le _⟩
    rw [he, score_applyRerank]
    rfl
  · intro r0 hfac
    rw [score_applyRerank, hfac]
    norm_num [clampAdjustment]

unseal Rat.add Rat.mul Rat.inv Rat.sub in
/-- Witness for C4 at a concrete all-four-bonus result: the rerank of
the singleton keeps length 1 and multiplies the score `4/5` by exactly
`3/2`. -/
theorem C4_witness :
    (rerankResults demoEnv "alpha" [bonusRes]).length = 1 ∧
    (applyRerank demoEnv (pyLowerStr "alpha") ((tokenize "alpha").dedup)
      bonusRes).score = (4/5) * (3/2) := by
  have h := C4_rerank_contract demoEnv "alpha" [bonusRes]
  exact ⟨h.1, h.2.2.2 bonusRes (by decide)⟩

/-- C1 (amended): every fused result's score is the weighted RRF sum of
its own relevance factors, multiplied by `1 + 0.2 * appearanceCount`
**only when** `appearanceCount > 1`; a document appearing in at most one
source keeps the plain weighted sum (no `1.2×` boost). -/
theorem C1_fusion_bonus (cfg : HSConfig)
    (semanticResults keywordResults graphResults : List SearchResult) :
    ∀ r ∈ fuseResults cfg semanticResults keywordResults graphResults,
      r.score = (if appearanceCount r.relevance_factors > 1
                 then weightedRRF cfg r.relevance_factors *
                      (1 + (1/5) * (appearanceCount r.relevance_factors : ℚ))
                 else weightedRRF cfg r.relevance_factors) ∧
      (appearanceCount r.relevance_factors ≤ 1 →
        r.score = weightedRRF cfg r.relevance_factors) := by
  intro r hr
  have h1 := (score_mem_fuseResults hr).1
  refine ⟨by rw [h1]; rfl, ?_⟩
  intro hle
  rw [h1]
  show (if appearanceCount r.relevance_factors > 1
        then weightedRRF cfg r.relevance_factors *
             (1 + (1/5) * (appearanceCount r.relevance_factors : ℚ))
        else weightedRRF cfg r.relevance_factors) =
    weightedRRF cfg r.relevance_factors
  rw [if_neg (by omega)]

unseal Rat.add Rat.mul Rat.inv Rat.sub List.merge List.mergeSort in
/-- Witness for C1's amended statement: the single-source fused result
keeps its plain weighted RRF sum. -/
theorem C1_witness :
    soloFused.score =
      (if appearanceCount soloFused.relevance_factors > 1
       then weightedRRF {} soloFused.relevance_factors *
            (1 + (1/5) * (appearanceCount soloFused.relevance_factors : ℚ))
       else weightedRRF {} soloFused.relevance_factors) :=
  (C1_fusion_bonus {} [soloSemRes] [] [] soloFused (by decide)).1

unseal Rat.add Rat.mul Rat.inv Rat.sub List.merge List.mergeSort in
/-- Counterexample to C1 as stated: a document ranked #1 in only the
semantic source fuses to exactly the weighted sum `0.5 * (1/61) = 1/122`
(appearance count 1), and not to the claimed
`1/122 * (1 + 0.2 * 1) = 1.2×` value. -/
theorem C1_counterexample :
    (fuseResults {} [soloSemRes] [] []).map (fun r =>
      (appearanceCount r.relevance_factors,
       weightedRRF {} r.relevance_factors, r.score)) = [(1, 1/122, 1/122)] ∧
    ((1:ℚ)/122) ≠ (1/122) * (1 + (1/5) * (1:ℚ)) := by
  refine ⟨by decide, by decide⟩

theorem core_mem_fuseResults_emptySem {cfg : HSConfig}
    {keywordResults graphResults : List SearchResult} {r : SearchResult}
    (h : r ∈ fuseResults cfg [] keywordResults graphResults) :
    ∃ r0 ∈ keywordResults, core r = core r0 := by
  rcases mem_fuseResults h with ⟨p, hp, he⟩
  have hc : core r = core p.2 := by rw [he]; rfl
  have hp2 : p ∈ processSourceResults "keyword_rrf" "keyword_score"
      keywordResults 1 [] := hp
  rcases core_mem_processSourceResults hp2 with ⟨q, hq, _⟩ | ⟨r0, hr0, hcq⟩
  · simp at hq
  · exact ⟨r0, hr0, hc.trans hcq⟩

/-- C3: a semantic branch that raises is degraded to an empty list for
that branch only — the call behaves exactly as with an empty semantic
response, and being a total function it never fails for that reason;
with at least one keyword result and `k ≥ 1`, the call returns a
non-empty, descending-ordered result list built solely from the keyword
branch (every returned result carries the id, content, title, category
and metadata of some keyword result). -/
theorem C3_semantic_failure (env : Env) (st : EngineState) (e : Unit)
    (query : String) (k : ℕ) (enableRerank : Bool) (hk : 1 ≤ k)
    (hkw : keywordSearch st query (k * 2) ≠ []) :
    hybridSearch env st (Except.error e) query k enableRerank =
      hybridSearch env st (Except.ok []) query k enableRerank ∧
    hybridSearch env st (Except.error e) query k enableRerank ≠ [] ∧
    (hybridSearch env st (Except.error e) query k enableRerank).Pairwise
      (fun a b => b.score ≤ a.score) ∧
    (∀ r ∈ hybridSearch env st (Except.error e) query k enableRerank,
      ∃ r0 ∈ keywordSearch st query (k * 2), core r = core r0) := by
  refine ⟨rfl, ?_, hybridSearch_sorted _ _ _ _ _ _, ?_⟩
  · exact hybridSearch_ne_nil env st (Except.error e) query k enableRerank hk
      (Or.inr hkw)
  · intro r hr
    rw [hybridSearch_eq] at hr
    have hr2 := List.mem_of_mem_take hr
    by_cases hb : (enableRerank && !(fuseResults st.cfg
        (semanticSearch (Except.error e))
        (keywordSearch st query (k * 2)) []).isEmpty) = true
    · rw [if_pos hb] at hr2
      rcases mem_rerankResults hr2 with ⟨r1, hr1, he⟩
      have hc : core r = core r1 := by
        rw [he]; exact core_applyRerank _ _ _ _
      rcases core_mem_fuseResults_emptySem hr1 with ⟨r0, hr0, hcq⟩
      exact ⟨r0, hr0, hc.trans hcq⟩
    · rw [if_neg hb] at hr2
      exact core_mem_fuseResults_emptySem hr2

unseal Rat.add Rat.mul Rat.inv Rat.sub List.merge List.mergeSort in
/-- Witness for C3: over the demo index, with the semantic collaborator
raising, the hybrid search still returns a non-empty list. -/
theorem C3_witness :
    hybridSearch demoEnv demoEngine (Except.error ()) "alpha" 1 true ≠ [] :=
  (C3_semantic_failure demoEnv demoEngine () "alpha" 1 true (by norm_num)
    (by decide)).2.1

/-- C10: when an id occurs both in the semantic list (at 0-based
position `s1.length`, with no duplicate ids in either list) and in the
keyword list (at position `t1.length`), the fused entry for that id
keeps the content, title, category and metadata of the semantic entry,
and its `relevance_factors` are exactly the four `*_rrf` / `*_score`
keys — the factors the keyword entry carried before fusion (such as
`bm25_score`) are discarded. -/
theorem C10_fusion_frame (cfg : HSConfig) (s1 s2 t1 t2 : List SearchResult)
    (rS rK : SearchResult) (graphResults : List SearchResult)
    (hid : rK.id = rS.id)
    (hs1 : rS.id ∉ s1.map SearchResult.id) (hs2 : rS.id ∉ s2.map SearchResult.id)
    (ht1 : rS.id ∉ t1.map SearchResult.id) (ht2 : rS.id ∉ t2.map SearchResult.id) :
    (∀ r ∈ fuseResults cfg (s1 ++ rS :: s2) (t1 ++ rK :: t2) graphResults,
      r.id = rS.id →
        r.content = rS.content ∧ r.title = rS.title ∧
        r.category = rS.category ∧ r.metadata = rS.metadata ∧
        r.relevance_factors =
          [("semantic_rrf", FVal.num (1 / (60 + ((1 + s1.length : ℕ) : ℚ)))),
           ("semantic_score", FVal.num rS.score),
           ("keyword_rrf", FVal.num (1 / (60 + ((1 + t1.length : ℕ) : ℚ)))),
           ("keyword_score", FVal.num rK.score)]) ∧
    (∃ r ∈ fuseResults cfg (s1 ++ rS :: s2) (t1 ++ rK :: t2) graphResults,
      r.id = rS.id) := by
  have hlook1 : aGet (processSourceResults "semantic_rrf" "semantic_score"
      (s1 ++ rS :: s2) 1 []) rS.id =
      some (fuseEntry "semantic_rrf" "semantic_score" rS (1 + s1.length) none) := by
    rw [aGet_processSourceResults_split _ _ _ _ _ _ _ hs1 hs2, aGet_nil]
  have ht1' : rK.id ∉ t1.map SearchResult.id := by rw [hid]; exact ht1
  have ht2' : rK.id ∉ t2.map SearchResult.id := by rw [hid]; exact ht2
  have hlook2 : aGet (fusedDict (s1 ++ rS :: s2) (t1 ++ rK :: t2)) rS.id =
      some (fuseEntry "keyword_rrf" "keyword_score" rK (1 + t1.length)
        (some (fuseEntry "semantic_rrf" "semantic_score" rS (1 + s1.length) none))) := by
    unfold fusedDict
    have h2 := aGet_processSourceResults_split "keyword_rrf" "keyword_score"
      t1 t2 rK 1 (processSourceResults "semantic_rrf" "semantic_score"
        (s1 ++ rS :: s2) 1 []) ht1' ht2'
    rw [hid] at h2
    rw [h2, hlook1]
  have hnd : ((fusedDict (s1 ++ rS :: s2) (t1 ++ rK :: t2)).map Prod.fst).Nodup := by
    unfold fusedDict
    exact nodup_keys_processSourceResults (nodup_keys_processSourceResults (by simp))
  have hinv : ∀ p ∈ fusedDict (s1 ++ rS :: s2) (t1 ++ rK :: t2),
      (p : String × SearchResult).2.id = p.1 := by
    unfold fusedDict
    exact keyid_mem_processSourceResults (keyid_mem_processSourceResults (by simp))
  constructor
  · intro r hr hrid
    rcases mem_fuseResults hr with ⟨p, hp, he⟩
    have hid_r : r.id = p.2.id := by rw [he]
    have hkey : p.1 = rS.id := by
      rw [← hinv p hp, ← hid_r, hrid]
    have hpair : (p.1, p.2) ∈ fusedDict (s1 ++ rS :: s2) (t1 ++ rK :: t2) := by
      rcases p with ⟨pk, pv⟩; exact hp
    have hpv : aGet (fusedDict (s1 ++ rS :: s2) (t1 ++ rK :: t2)) p.1 = some p.2 :=
      aGet_of_mem_nodup hnd hpair
    rw [hkey, hlook2] at hpv
    have hp2 : p.2 = fuseEntry "keyword_rrf" "keyword_score" rK (1 + t1.length)
        (some (fuseEntry "semantic_rrf" "semantic_score" rS (1 + s1.length) none)) :=
      (Option.some.inj hpv).symm
    rw [he, hp2]
    refine ⟨rfl, rfl, rfl, rfl, rfl⟩
  · refine ⟨{ fuseEntry "keyword_rrf" "keyword_score" rK (1 + t1.length)
        (some (fuseEntry "semantic_rrf" "semantic_score" rS (1 + s1.length) none)) with
        score := fusionScore cfg (fuseEntry "keyword_rrf" "keyword_score" rK
          (1 + t1.length) (some (fuseEntry "semantic_rrf" "semantic_score" rS
            (1 + s1.length) none))).relevance_factors,
        source := "hybrid" }, ?_, rfl⟩
    rw [fuseResults_eq]
    apply mem_sortByScoreDesc.2
    apply List.mem_map.2
    exact ⟨(rS.id, fuseEntry "keyword_rrf" "keyword_score" rK (1 + t1.length)
      (some (fuseEntry "semantic_rrf" "semantic_score" rS (1 + s1.length) none))),
      mem_of_aGet hlook2, rfl⟩

/-- Witness for C10: the id `doc-7` appears in both singleton lists; the
fused output contains an entry for it. -/
theorem C10_witness :
    ∃ r ∈ fuseResults {} [wSemRes] [wKwRes] [], r.id = wSemRes.id :=
  (C10_fusion_frame {} [] [] [] [] wSemRes wKwRes [] rfl (by simp) (by simp)
    (by simp) (by simp)).2

end HybridSearch
